import Mathlib

/-!
# Verification of the `shoo` blackjack rules engine

Shallow embedding of the repository's core (src/card.rs, src/hand.rs,
src/shoe.rs, src/table.rs — the modules re-exported by src/lib.rs and used by
`Table`), together with proofs of the specification's claims about it.

Modelling conventions:
* Rust `u8`/`usize`/`i32` arithmetic is modelled with `Nat`/`Int`.  All totals
  manipulated by `Hand::insert` stay far below 2^8 on every state reachable by
  insertions (values are capped by the Bust transition at ≤ 32 before being
  discarded), and the ace counter only feeds the `Soft` branch, which is
  reachable only while the hand value is ≤ 21 (hence with at most 21 aces), so
  no wrap-around is observable; `u8` subtraction `v - i*10` never underflows on
  reachable states (proved below via the `specVal` invariant), matching `Nat`
  truncated subtraction.
* Rust `f32` (`penetration`, `running_count`, `max_penetration`) is modelled
  with `ℚ`.  Every claim settled against these fields uses exact values
  (ratios of small integers) for which the `f32` comparisons in the source are
  exact or rounding-robust.
* `Vec::push` appends at the end (`l ++ [x]`), `Vec::pop` removes the last
  element (`getLast?` / `dropLast`).
* Shuffling (`rand`) is modelled as the identity permutation: every property
  claimed of the shoe or table depends only on the multiset/number of cards in
  the shoe, never on their order.
* A Rust `panic!` / `unwrap` failure is modelled by returning `none` from the
  operation; `debug_assert!` checks (`Hand::verify`, the empty-hands check in
  `Table::deal`) are compiled out of release builds and are not modelled as
  panics — the invariants they check are instead proved below.
-/

/-- Suit of a card (src/card.rs). -/
inductive Suit where
  | Heart : Suit
  | Diamond : Suit
  | Club : Suit
  | Spade : Suit
deriving DecidableEq, Repr

/-- Rank of a card (src/card.rs). -/
inductive Rank where
  | Ace : Rank
  | Two : Rank
  | Three : Rank
  | Four : Rank
  | Five : Rank
  | Six : Rank
  | Seven : Rank
  | Eight : Rank
  | Nine : Rank
  | Ten : Rank
  | Jack : Rank
  | Queen : Rank
  | King : Rank
deriving DecidableEq, Repr

/-- A playing card (src/card.rs). -/
structure Card where
  suit : Suit
  rank : Rank
deriving DecidableEq, Repr

/-- `Card::values` (src/card.rs): the candidate point values of a card. -/
def Card.values (c : Card) : List Nat :=
  match c.rank with
  | .Ace => [1, 11]
  | .Two => [2]
  | .Three => [3]
  | .Four => [4]
  | .Five => [5]
  | .Six => [6]
  | .Seven => [7]
  | .Eight => [8]
  | .Nine => [9]
  | .Ten => [10]
  | .Jack => [10]
  | .Queen => [10]
  | .King => [10]

/-- `Card::count` (src/card.rs): the hi-lo counting weight of a card. -/
def Card.count (c : Card) : Int :=
  match c.rank with
  | .Two | .Three | .Four | .Five | .Six => 1
  | .Seven | .Eight | .Nine => 0
  | .Ten | .Jack | .Queen | .King | .Ace => -1

/-- `Card::is_ace` (src/card.rs). -/
def Card.is_ace (c : Card) : Bool :=
  c.rank = Rank.Ace

/-- `Value` (src/hand.rs): the valuation of a hand.  `Soft v a` records the
best total `v` together with the number `a` of hard aces (forced to count
as 1). -/
inductive Value where
  | Blackjack : Value
  | Soft : Nat → Nat → Value
  | Hard : Nat → Value
  | Bust : Value
deriving DecidableEq, Repr

/-- `Value::value` (src/hand.rs): numeric value, `none` when bust. -/
def Value.value : Value → Option Nat
  | .Blackjack => some 21
  | .Soft v _ => some v
  | .Hard v => some v
  | .Bust => none

/-- `Hand` (src/hand.rs). -/
structure Hand where
  cards : List Card
  num_aces : Nat
  val : Value
deriving DecidableEq, Repr

/-- `Hand::default` (src/hand.rs). -/
def Hand.default : Hand :=
  { cards := [], num_aces := 0, val := Value.Hard 0 }

/-- Rust `Iterator::min` over a nonempty list of `u8` pairs with the derived
lexicographic order (first minimal element); `(0, 0)` stands for the
unreachable `unwrap` of an empty iterator. -/
def lexMin (l : List (Nat × Nat)) : Nat × Nat :=
  match l with
  | [] => (0, 0)
  | p :: ps => ps.foldl (fun m q => if q.1 < m.1 ∨ (q.1 = m.1 ∧ q.2 < m.2) then q else m) p

/-- Rust `Iterator::max` over a nonempty list of `u8` pairs with the derived
lexicographic order (last maximal element). -/
def lexMax (l : List (Nat × Nat)) : Nat × Nat :=
  match l with
  | [] => (0, 0)
  | p :: ps => ps.foldl (fun m q => if m.1 < q.1 ∨ (m.1 = q.1 ∧ m.2 ≤ q.2) then q else m) p

/-- Rust `Iterator::min` over a nonempty list of `u8`. -/
def natsMin (l : List Nat) : Nat :=
  match l with
  | [] => 0
  | x :: xs => xs.foldl Nat.min x

/-- Rust `Iterator::max` over a nonempty list of `u8`. -/
def natsMax (l : List Nat) : Nat :=
  match l with
  | [] => 0
  | x :: xs => xs.foldl Nat.max x

/-- `Hand::insert` (src/hand.rs): deal a card to the hand, updating the
valuation incrementally.  `slice[0]` is modelled by `headD 0` (`Card.values`
is never empty). -/
def Hand.insert (h : Hand) (card : Card) : Hand :=
  if h.cards.isEmpty then
    if card.is_ace then
      { cards := h.cards ++ [card], num_aces := h.num_aces + 1, val := Value.Soft 11 0 }
    else
      { cards := h.cards ++ [card], num_aces := h.num_aces,
        val := Value.Hard (card.values.headD 0) }
  else
    let newVal : Value :=
      match h.val with
      | Value.Bust => Value.Bust
      | Value.Hard v =>
        let possible_vals := card.values.map (fun x => x + v)
        if h.cards.length = 1 ∧ v = 10 ∧ card.is_ace then
          Value.Blackjack
        else if ∀ x ∈ possible_vals, 21 < x then
          Value.Bust
        else if possible_vals.length = 1 then
          Value.Hard (possible_vals.headD 0)
        else if ∃ x ∈ possible_vals, 21 < x then
          Value.Hard (natsMin possible_vals)
        else
          Value.Soft (natsMax possible_vals) 0
      | Value.Soft v a =>
        let deductions := h.num_aces - a
        let other_vals := (List.range (deductions + 1)).map (fun i => (v - i * 10, a + i))
        let all_vals := (card.values.reverse.enum).foldl
          (fun acc oc => acc ++ other_vals.map (fun ba => (oc.2 + ba.1, ba.2 + oc.1))) []
        if h.cards.length = 1 ∧ v = 11 ∧ card.values.headD 0 = 10 then
          Value.Blackjack
        else if ∀ p ∈ all_vals, 21 < p.1 then
          Value.Bust
        else if (all_vals.filter (fun p => p.1 ≤ 21)).length = 1 then
          Value.Hard (lexMin all_vals).1
        else
          Value.Soft (lexMax (all_vals.filter (fun p => p.1 ≤ 21))).1
            (lexMax (all_vals.filter (fun p => p.1 ≤ 21))).2
      | Value.Blackjack =>
        let other_vals : List Nat := [11, 21]
        let all_vals := card.values.foldl (fun acc a => acc ++ other_vals.map (fun b => a + b)) []
        if ∀ x ∈ all_vals, 21 < x then
          Value.Bust
        else
          Value.Hard (natsMin all_vals)
    { cards := h.cards ++ [card],
      num_aces := if card.is_ace then h.num_aces + 1 else h.num_aces,
      val := newVal }

/-- `Hand::value` (src/hand.rs). -/
def Hand.value (h : Hand) : Option Nat :=
  h.val.value

/-- `Hand::busted` (src/hand.rs). -/
def Hand.busted (h : Hand) : Bool :=
  h.val = Value.Bust

/-- `Hand::blackjack` (src/hand.rs). -/
def Hand.blackjack (h : Hand) : Bool :=
  h.val = Value.Blackjack

/-- `Hand::is_empty` (src/hand.rs). -/
def Hand.is_empty (h : Hand) : Bool :=
  h.cards.isEmpty

/-- `Hand::len` (src/hand.rs). -/
def Hand.len (h : Hand) : Nat :=
  h.cards.length

/-- The hand obtained by inserting the cards of `cs`, in order, into the
empty hand. -/
def handOf (cs : List Card) : Hand :=
  cs.foldl Hand.insert Hand.default

/-! ## Specification-level valuation

`specVal` computes, from scratch, what the incremental evaluator is proved to
maintain.  All the hand-level claims follow from the refinement theorem
`handOf_val` below. -/

/-- The lowest point value of a card (`card.values()[0]`). -/
def lowVal (c : Card) : Nat :=
  c.values.headD 0

/-- Sum of each card's lowest point value. -/
def lowSum (cs : List Card) : Nat :=
  (cs.map lowVal).sum

/-- Number of aces among the cards. -/
def aceCount (cs : List Card) : Nat :=
  cs.countP (fun c => c.is_ace)

/-- Exactly two cards, one an ace, the other with a ten-value candidate. -/
def bjTwo : List Card → Prop
  | [c1, c2] => (c1.is_ace = true ∧ 10 ∈ c2.values) ∨ (c2.is_ace = true ∧ 10 ∈ c1.values)
  | _ => False

instance bjTwo.inst : (cs : List Card) → Decidable (bjTwo cs)
  | [] => isFalse (fun h => h)
  | [_] => isFalse (fun h => h)
  | [_, _] => inferInstanceAs (Decidable (_ ∨ _))
  | _ :: _ :: _ :: _ => isFalse (fun h => h)

/-- The from-scratch valuation of a card sequence: `Bust` when even the
all-aces-low total exceeds 21, `Blackjack` for an ace–ten pair, otherwise
`Soft`/`Hard` according to whether one ace can still count as 11.  (When an
ace is present, `lowSum cs + 10` is the best total whenever it is ≤ 21: a
second ace counting as 11 would need `lowSum cs ≤ 1`, impossible with two
aces.)  `Hand.insert` is proved below to realise exactly this valuation. -/
def specVal (cs : List Card) : Value :=
  if 21 < lowSum cs then Value.Bust
  else if bjTwo cs then Value.Blackjack
  else if 1 ≤ aceCount cs ∧ lowSum cs + 10 ≤ 21 then
    Value.Soft (lowSum cs + 10) (aceCount cs - 1)
  else Value.Hard (lowSum cs)

/-! ## The shoe (src/shoe.rs)

`f32` is modelled with `ℚ`; `rand` shuffling with the identity permutation
(every property proved below depends only on the number and multiset of
cards, never on their order).  `Vec::pop` removes the last element. -/

/-- `HiLoCounter` (src/shoe.rs). -/
structure HiLoCounter where
  running_count : Int
  num_decks : Nat
deriving DecidableEq, Repr

/-- `Counter::new` for `HiLoCounter` (src/shoe.rs). -/
def HiLoCounter.new (num_decks : Nat) : HiLoCounter :=
  { running_count := 0, num_decks := num_decks }

/-- `Counter::clear` for `HiLoCounter` (src/shoe.rs). -/
def HiLoCounter.clear (c : HiLoCounter) : HiLoCounter :=
  { c with running_count := 0 }

/-- `Counter::count` for `HiLoCounter` (src/shoe.rs). -/
def HiLoCounter.count (c : HiLoCounter) : ℚ :=
  (c.running_count : ℚ) / (c.num_decks : ℚ)

/-- `Counter::insert` for `HiLoCounter` (src/shoe.rs). -/
def HiLoCounter.insert (c : HiLoCounter) (card : Card) : HiLoCounter :=
  { c with running_count := c.running_count + card.count }

/-- `Shoe` (src/shoe.rs). -/
structure Shoe where
  cards : List Card
  counter : HiLoCounter
  decks : Nat
deriving DecidableEq, Repr

def allSuits : List Suit := [Suit.Heart, Suit.Diamond, Suit.Club, Suit.Spade]

def allRanks : List Rank :=
  [Rank.Ace, Rank.Two, Rank.Three, Rank.Four, Rank.Five, Rank.Six, Rank.Seven,
    Rank.Eight, Rank.Nine, Rank.Ten, Rank.Jack, Rank.Queen, Rank.King]

/-- `Shoe::new` (src/shoe.rs): `decks` copies of each of the 52 cards,
pushed suit-major; the `rand` shuffle is modelled as the identity
permutation. -/
def Shoe.new (decks : Nat) : Shoe :=
  { cards := allSuits.foldl
      (fun acc s => allRanks.foldl
        (fun acc2 r => acc2 ++ List.replicate decks (Card.mk s r)) acc) [],
    counter := HiLoCounter.new decks,
    decks := decks }

/-- `Shoe::len` (src/shoe.rs). -/
def Shoe.len (s : Shoe) : Nat :=
  s.cards.length

/-- `Shoe::is_empty` (src/shoe.rs). -/
def Shoe.is_empty (s : Shoe) : Bool :=
  s.cards.isEmpty

/-- `Shoe::deal` (src/shoe.rs): pop the last card, updating the counter. -/
def Shoe.deal (s : Shoe) : Option Card × Shoe :=
  match s.cards.getLast? with
  | some card =>
    (some card,
      { s with
        cards := s.cards.dropLast
        counter := s.counter.insert card })
  | none => (none, s)

/-- `Shoe::num_decks` (src/shoe.rs). -/
def Shoe.num_decks (s : Shoe) : Nat :=
  s.decks

/-- `Shoe::running_count` (src/shoe.rs). -/
def Shoe.running_count (s : Shoe) : ℚ :=
  s.counter.count

/-- `Shoe::penetration` (src/shoe.rs). -/
def Shoe.penetration (s : Shoe) : ℚ :=
  1 - (s.cards.length : ℚ) / ((s.decks * 52 : Nat) : ℚ)

/-- `Shoe::reset` (src/shoe.rs). -/
def Shoe.reset (s : Shoe) : Shoe :=
  Shoe.new s.decks

/-- `k` successive calls of `Shoe::deal`, keeping the shoe. -/
def dealIter (s : Shoe) : Nat → Shoe
  | 0 => s
  | k + 1 => dealIter (s.deal).2 k

/-- Sum of the hi-lo weights of a list of cards. -/
def countSum (cs : List Card) : Int :=
  (cs.map Card.count).sum

/-! ## The table (src/table.rs)

A Rust `panic!` (illegal phase, out-of-bounds spot, `unwrap` of an exhausted
shoe) is modelled by `none`.  The `debug_assert!` that all player hands are
empty in `Table::deal` is compiled out of release builds and holds in every
reachable `Open` state; it is not modelled.  Rust sets `state = Dealt` before
drawing the initial cards, but a panic aborts, so sequencing the state update
after the draws is observationally identical. -/

/-- `Chip` (src/bet.rs). -/
inductive Chip where
  | One : Chip
  | Five : Chip
  | TwentyFive : Chip
  | Hundred : Chip
deriving DecidableEq, Repr

/-- `Bet` (src/bet.rs); the chip multiset (a `HashMap` in Rust) is modelled
as an association list.  The table stores bets but no table operation reads
them. -/
structure Bet where
  chips : List (Chip × Nat)
  units : Nat
deriving DecidableEq, Repr

/-- `Bet::default` (src/bet.rs, derived `Default`). -/
def Bet.default : Bet :=
  { chips := [], units := 0 }

/-- `Outcome` (src/table.rs). -/
inductive Outcome where
  | Blackjack : Outcome
  | Win : Outcome
  | Lose : Outcome
  | Push : Outcome
deriving DecidableEq, Repr

/-- `TableState` (src/table.rs). -/
inductive TableState where
  | Open : TableState
  | Dealt : TableState
  | Flipped : TableState
deriving DecidableEq, Repr

/-- `Table` (src/table.rs). -/
structure Table where
  dealer : Hand
  player_hands : List Hand
  player_bets : List Bet
  shoe : Shoe
  max_penetration : ℚ
  num_decks : Nat
  state : TableState
deriving DecidableEq, Repr

/-- `Table::new` (src/table.rs); `clamp(0.0, 1.0)` on the `ℚ` model. -/
def Table.new (num_decks num_spots : Nat) (max_penetration : ℚ) : Table :=
  { dealer := Hand.default
    player_hands := List.replicate num_spots Hand.default
    player_bets := List.replicate num_spots Bet.default
    shoe := Shoe.new num_decks
    max_penetration := min 1 (max 0 max_penetration)
    num_decks := num_decks
    state := TableState.Open }

/-- `Table::reset` (src/table.rs); `none` models the panic outside `Open`. -/
def Table.reset (t : Table) : Option Table :=
  if t.state ≠ TableState.Open then none
  else some
    { t with
      shoe := Shoe.new t.num_decks
      dealer := Hand.default
      player_hands := List.replicate t.player_hands.length Hand.default }

/-- `Table::clear_hands` (src/table.rs). -/
def Table.clear_hands (t : Table) : Option Table :=
  if t.state ≠ TableState.Flipped then none
  else some
    { t with
      dealer := Hand.default
      player_hands := List.replicate t.player_hands.length Hand.default
      state := TableState.Open }

/-- One `shoe.deal().unwrap()` into each hand in turn, threading the shoe;
`none` models the `unwrap` panic on an exhausted shoe. -/
def dealRound (s : Shoe) (hands : List Hand) : Option (Shoe × List Hand) :=
  match hands with
  | [] => some (s, [])
  | h :: hs =>
    match s.deal with
    | (some c, s') =>
      match dealRound s' hs with
      | some (s'', hs') => some (s'', h.insert c :: hs')
      | none => none
    | (none, _) => none

/-- One `shoe.deal().unwrap()` into a single hand. -/
def dealOne (s : Shoe) (h : Hand) : Option (Shoe × Hand) :=
  match s.deal with
  | (some c, s') => some (s', h.insert c)
  | (none, _) => none

/-- The shoe `Table::deal` actually deals from: replaced by a fresh shoe when
penetration exceeds the configured maximum. -/
def Table.dealShoe (t : Table) : Shoe :=
  if decide (t.shoe.penetration > t.max_penetration) then Shoe.new t.num_decks
  else t.shoe

/-- `Table::deal` (src/table.rs): two round-robin passes of one card to each
player spot then the dealer; returns whether a reshuffle occurred. -/
def Table.deal (t : Table) : Option (Table × Bool) :=
  if t.state ≠ TableState.Open then none
  else
    let reshuffle : Bool := decide (t.shoe.penetration > t.max_penetration)
    match dealRound t.dealShoe t.player_hands with
    | none => none
    | some (s1, hands1) =>
      match dealOne s1 t.dealer with
      | none => none
      | some (s2, dealer1) =>
        match dealRound s2 hands1 with
        | none => none
        | some (s3, hands2) =>
          match dealOne s3 dealer1 with
          | none => none
          | some (s4, dealer2) =>
            some ({ t with
              shoe := s4
              dealer := dealer2
              player_hands := hands2
              state := TableState.Dealt }, reshuffle)

/-- `Table::peek` (src/table.rs). -/
def Table.peek (t : Table) : Option (Table × Bool) :=
  if t.state ≠ TableState.Dealt then none
  else if t.dealer.blackjack then some ({ t with state := TableState.Flipped }, true)
  else some (t, false)

/-- `Table::player_hand` (src/table.rs); Rust indexing panics out of bounds —
the mutating operations below check the bound explicitly, and the claims
concern valid spots. -/
def Table.player_hand (t : Table) (player : Nat) : Hand :=
  t.player_hands.getD player Hand.default

/-- `Table::get_outcome` (src/table.rs); the `unwrap`s are reached only when
neither hand is busted, hence both values exist (`getD 0` is never the
default). -/
def Table.get_outcome (t : Table) (player : Nat) : Outcome :=
  if t.dealer.blackjack then
    (if (t.player_hand player).blackjack then Outcome.Push else Outcome.Lose)
  else if (t.player_hand player).blackjack then Outcome.Blackjack
  else if (t.player_hand player).busted then Outcome.Lose
  else if t.dealer.busted then Outcome.Win
  else
    let p := ((t.player_hand player).value).getD 0
    let dv := (t.dealer.value).getD 0
    if dv < p then Outcome.Win
    else if p < dv then Outcome.Lose
    else Outcome.Push

/-- `Table::player_hit` (src/table.rs). -/
def Table.player_hit (t : Table) (player : Nat) : Option (Table × Bool) :=
  if t.state ≠ TableState.Dealt then none
  else if t.player_hands.length ≤ player then none
  else if (t.player_hand player).busted then some (t, true)
  else
    match t.shoe.deal with
    | (some c, s') =>
      let newHand := (t.player_hand player).insert c
      some ({ t with
        shoe := s'
        player_hands := t.player_hands.set player newHand }, newHand.busted)
    | (none, _) => none

/-- `Table::dealer_hit` (src/table.rs). -/
def Table.dealer_hit (t : Table) : Option (Table × Bool) :=
  if t.state = TableState.Open then none
  else if t.dealer.busted then some (t, true)
  else
    match t.shoe.deal with
    | (some c, s') =>
      let d' := t.dealer.insert c
      some ({ t with
        shoe := s'
        dealer := d'
        state := TableState.Flipped }, d'.busted)
    | (none, _) => none

/-- `Table::dealer_value` (src/table.rs). -/
def Table.dealer_value (t : Table) : Option Nat :=
  if t.state = TableState.Open then none
  else t.dealer.value

/-- `Table::flip_hole` (src/table.rs). -/
def Table.flip_hole (t : Table) : Option Table :=
  if t.state = TableState.Open then none
  else some { t with state := TableState.Flipped }

/-- Modelled from the spec (§4.4, `getOutcome`): "Priority order (first match
wins): dealer has Blackjack → player Blackjack ⇒ Push, else Lose.  Else
player has Blackjack ⇒ Blackjack (win).  Else player busted ⇒ Lose.  Else
dealer busted ⇒ Win.  Else compare numeric values: player>dealer ⇒ Win,
player<dealer ⇒ Lose, equal ⇒ Push."  (The final comparison is stated on the
numeric values, which exist because neither hand is busted there.) -/
def outcomeSpec (dealer player : Hand) : Outcome :=
  if dealer.blackjack then (if player.blackjack then Outcome.Push else Outcome.Lose)
  else if player.blackjack then Outcome.Blackjack
  else if player.busted then Outcome.Lose
  else if dealer.busted then Outcome.Win
  else
    match player.value, dealer.value with
    | some p, some dv =>
      if dv < p then Outcome.Win
      else if p < dv then Outcome.Lose
      else Outcome.Push
    | _, _ => Outcome.Push

/-! ## Proofs -/

/-! ### Card-shape facts -/

theorem card_shape (c : Card) :
    (c.is_ace = true ∧ c.values = [1, 11]) ∨
      (c.is_ace = false ∧ ∃ x, c.values = [x] ∧ 2 ≤ x ∧ x ≤ 10) := by
  rcases c with ⟨s, r⟩
  cases r
  case Ace => exact Or.inl ⟨rfl, rfl⟩
  all_goals exact Or.inr ⟨rfl, _, rfl, by omega, by omega⟩

theorem lowVal_of_ace {c : Card} (hc : c.is_ace = true) : lowVal c = 1 := by
  rcases card_shape c with ⟨_, hv⟩ | ⟨hna, _⟩
  · simp [lowVal, hv]
  · rw [hc] at hna; cases hna

theorem lowVal_pos (c : Card) : 1 ≤ lowVal c := by
  rcases card_shape c with ⟨_, hv⟩ | ⟨_, x, hv, hx, _⟩ <;> simp [lowVal, hv] <;> omega

theorem lowVal_le_ten (c : Card) : lowVal c ≤ 10 := by
  rcases card_shape c with ⟨_, hv⟩ | ⟨_, x, hv, _, hx⟩ <;> simp [lowVal, hv] <;> omega

theorem mem_ten_iff (c : Card) : 10 ∈ c.values ↔ (c.is_ace = false ∧ lowVal c = 10) := by
  rcases card_shape c with ⟨ha, hv⟩ | ⟨ha, x, hv, _, _⟩ <;> simp [lowVal, hv, ha]
  omega

theorem ace_of_lowVal_lt_two {c : Card} (h : lowVal c < 2) : c.is_ace = true := by
  rcases card_shape c with ⟨ha, _⟩ | ⟨_, x, hv, hx, _⟩
  · exact ha
  · rw [lowVal, hv] at h; simp at h; omega

/-! ### Sums and counts -/

theorem lowSum_append (cs : List Card) (c : Card) :
    lowSum (cs ++ [c]) = lowSum cs + lowVal c := by
  simp [lowSum]

theorem lowSum_single (c : Card) : lowSum [c] = lowVal c := by
  simp [lowSum]

theorem aceCount_append (cs : List Card) (c : Card) :
    aceCount (cs ++ [c]) = aceCount cs + (if c.is_ace then 1 else 0) := by
  simp [aceCount, List.countP_append, List.countP_cons]

theorem aceCount_single (c : Card) : aceCount [c] = if c.is_ace then 1 else 0 := by
  simp [aceCount, List.countP_cons]

theorem aceCount_le_lowSum (cs : List Card) : aceCount cs ≤ lowSum cs := by
  induction cs with
  | nil => simp [aceCount, lowSum]
  | cons c cs ih =>
    have h1 := lowVal_pos c
    simp only [aceCount, List.countP_cons, lowSum, List.map_cons, List.sum_cons] at *
    split_ifs <;> omega

theorem lowSum_pos {cs : List Card} (h : cs ≠ []) : 1 ≤ lowSum cs := by
  cases cs with
  | nil => simp at h
  | cons c cs =>
    have := lowVal_pos c
    simp only [lowSum, List.map_cons, List.sum_cons]
    omega

/-! ### bjTwo facts -/

theorem bjTwo_length {cs : List Card} (h : bjTwo cs) : cs.length = 2 := by
  match cs with
  | [] => cases h
  | [_] => cases h
  | [_, _] => rfl
  | _ :: _ :: _ :: _ => cases h

theorem bjTwo_stats {cs : List Card} (h : bjTwo cs) :
    lowSum cs = 11 ∧ aceCount cs = 1 := by
  match cs with
  | [c1, c2] =>
    rcases h with ⟨ha, hm⟩ | ⟨ha, hm⟩ <;>
      rcases (mem_ten_iff _).mp hm with ⟨hna, hlv⟩ <;>
      simp [lowSum, aceCount, List.countP_cons, lowVal_of_ace ha, hlv, ha, hna]
  | [] => cases h
  | [_] => cases h
  | _ :: _ :: _ :: _ => cases h

theorem not_bjTwo_of_length {cs : List Card} (h : cs.length ≠ 2) : ¬ bjTwo cs :=
  fun hb => h (bjTwo_length hb)

/-! ### specVal introduction and inversion -/

theorem specVal_of_bust {cs : List Card} (h : 21 < lowSum cs) : specVal cs = Value.Bust := by
  rw [specVal, if_pos h]

theorem specVal_of_bj {cs : List Card} (h1 : lowSum cs ≤ 21) (h2 : bjTwo cs) :
    specVal cs = Value.Blackjack := by
  rw [specVal, if_neg (by omega), if_pos h2]

theorem specVal_of_soft {cs : List Card} (h1 : lowSum cs ≤ 21) (h2 : ¬ bjTwo cs)
    (h3 : 1 ≤ aceCount cs) (h4 : lowSum cs + 10 ≤ 21) :
    specVal cs = Value.Soft (lowSum cs + 10) (aceCount cs - 1) := by
  rw [specVal, if_neg (by omega), if_neg h2, if_pos ⟨h3, h4⟩]

theorem specVal_of_hard {cs : List Card} (h1 : lowSum cs ≤ 21) (h2 : ¬ bjTwo cs)
    (h3 : aceCount cs = 0 ∨ 21 < lowSum cs + 10) :
    specVal cs = Value.Hard (lowSum cs) := by
  rw [specVal, if_neg (by omega), if_neg h2, if_neg (by omega)]

theorem specVal_bust_inv {cs : List Card} (h : specVal cs = Value.Bust) :
    21 < lowSum cs := by
  rw [specVal] at h
  split_ifs at h with h1
  exact h1

theorem specVal_bj_inv {cs : List Card} (h : specVal cs = Value.Blackjack) :
    bjTwo cs ∧ lowSum cs ≤ 21 := by
  rw [specVal] at h
  split_ifs at h with h1 h2
  exact ⟨h2, by omega⟩

theorem specVal_soft_inv {cs : List Card} {v a : Nat} (h : specVal cs = Value.Soft v a) :
    lowSum cs ≤ 21 ∧ ¬ bjTwo cs ∧ 1 ≤ aceCount cs ∧ lowSum cs + 10 ≤ 21 ∧
      v = lowSum cs + 10 ∧ a = aceCount cs - 1 := by
  rw [specVal] at h
  split_ifs at h with h1 h2 h3
  cases h
  exact ⟨by omega, h2, h3.1, h3.2, rfl, rfl⟩

theorem specVal_hard_inv {cs : List Card} {v : Nat} (h : specVal cs = Value.Hard v) :
    lowSum cs ≤ 21 ∧ ¬ bjTwo cs ∧ (aceCount cs = 0 ∨ 21 < lowSum cs + 10) ∧
      v = lowSum cs := by
  rw [specVal] at h
  split_ifs at h with h1 h2 h3
  cases h
  exact ⟨by omega, h2, by omega, rfl⟩

/-! ### The refinement: `Hand.insert` realises `specVal`, one step -/

theorem insert_cards (h : Hand) (c : Card) : (h.insert c).cards = h.cards ++ [c] := by
  rw [Hand.insert]
  split
  · split <;> rfl
  · rfl

theorem insert_num_aces (h : Hand) (c : Card) :
    (h.insert c).num_aces = h.num_aces + (if c.is_ace then 1 else 0) := by
  rw [Hand.insert]
  split
  · split <;> simp [*]
  · show (if c.is_ace then h.num_aces + 1 else h.num_aces) = _
    split <;> simp

theorem isEmpty_false_of_ne_nil {cs : List Card} (h : cs ≠ []) : cs.isEmpty = false := by
  cases hcc : cs
  · exact absurd hcc h
  · rfl

theorem insert_val_bust (h : Hand) (c : Card)
    (hemp : h.cards ≠ []) (hval : h.val = Value.Bust)
    (hv : specVal h.cards = Value.Bust) :
    (h.insert c).val = specVal (h.cards ++ [c]) := by
  have hie := isEmpty_false_of_ne_nil hemp
  have hL := specVal_bust_inv hv
  have hlv := lowVal_pos c
  simp only [Hand.insert, hie, Bool.false_eq_true, if_false, hval]
  rw [specVal_of_bust (by rw [lowSum_append]; omega)]

theorem bjTwo_pair {c1 c2 : Card} :
    bjTwo [c1, c2] ↔
      ((c1.is_ace = true ∧ 10 ∈ c2.values) ∨ (c2.is_ace = true ∧ 10 ∈ c1.values)) :=
  Iff.rfl

theorem insert_val_empty (h : Hand) (c : Card) (hemp : h.cards = []) :
    (h.insert c).val = specVal (h.cards ++ [c]) := by
  rcases card_shape c with ⟨hca, hcv⟩ | ⟨hca, x, hcv, hx2, hx10⟩
  · have hl : lowSum [c] = 1 := by rw [lowSum_single, lowVal_of_ace hca]
    have ha : aceCount [c] = 1 := by rw [aceCount_single, hca]; rfl
    have hb : ¬ bjTwo [c] := not_bjTwo_of_length (by simp)
    simp only [Hand.insert, hemp, List.isEmpty_nil, if_true, hca, List.nil_append]
    rw [specVal_of_soft (by omega) hb (by omega) (by omega), hl, ha]
  · have hlowc : lowVal c = x := by rw [lowVal, hcv]; rfl
    have hl : lowSum [c] = x := by rw [lowSum_single, hlowc]
    have ha : aceCount [c] = 0 := by rw [aceCount_single, hca]; rfl
    have hb : ¬ bjTwo [c] := not_bjTwo_of_length (by simp)
    simp only [Hand.insert, hemp, List.isEmpty_nil, if_true, hca, Bool.false_eq_true,
      if_false, List.nil_append]
    rw [specVal_of_hard (by omega) hb (by omega), hl, hcv]
    rfl

theorem insert_val_hard (h : Hand) (c : Card) (v : Nat)
    (hemp : h.cards ≠ []) (hval : h.val = Value.Hard v)
    (hn : h.num_aces = aceCount h.cards)
    (hv : specVal h.cards = Value.Hard v) :
    (h.insert c).val = specVal (h.cards ++ [c]) := by
  have hie := isEmpty_false_of_ne_nil hemp
  obtain ⟨hL21, hbj, hna, hvL⟩ := specVal_hard_inv hv
  have hnle := aceCount_le_lowSum h.cards
  have hl1 := lowSum_pos hemp
  rcases card_shape c with ⟨hca, hcv⟩ | ⟨hca, x, hcv, hx2, hx10⟩
  · -- inserting an ace into a hard hand
    have hL' : lowSum (h.cards ++ [c]) = lowSum h.cards + 1 := by
      rw [lowSum_append, lowVal_of_ace hca]
    have hn' : aceCount (h.cards ++ [c]) = aceCount h.cards + 1 := by
      rw [aceCount_append, hca]; rfl
    simp only [Hand.insert, hie, Bool.false_eq_true, if_false, hval, hcv, hca,
      List.map_cons, List.map_nil, eq_self_iff_true, and_true]
    by_cases hbj2 : h.cards.length = 1 ∧ v = 10
    · -- blackjack special case: single ten-card + ace
      rw [if_pos hbj2]
      obtain ⟨c1, hc1⟩ := List.length_eq_one.mp hbj2.1
      have hc1low : lowVal c1 = 10 := by
        have h10 := hbj2.2
        rw [hc1, lowSum_single] at hvL
        omega
      have hc1na : c1.is_ace = false := by
        by_cases hax : c1.is_ace = true
        · rw [lowVal_of_ace hax] at hc1low; cases hc1low
        · simpa using hax
      have hbj' : bjTwo (h.cards ++ [c]) := by
        rw [hc1]
        exact bjTwo_pair.mpr (Or.inr ⟨hca, (mem_ten_iff c1).mpr ⟨hc1na, hc1low⟩⟩)
      rw [specVal_of_bj (by omega) hbj']
    · rw [if_neg hbj2]
      by_cases h21 : 21 < 1 + v
      · rw [if_pos (by intro y hy; simp at hy; rcases hy with rfl | rfl <;> omega)]
        rw [specVal_of_bust (by omega)]
      · rw [if_neg (by intro hall; have := hall (1 + v) (by simp); omega)]
        rw [if_neg (by simp)]
        by_cases h11 : 11 ≤ v
        · -- ace forced to 1, hand stays hard
          rw [if_pos ⟨11 + v, by simp, by omega⟩]
          have hmin : natsMin [1 + v, 11 + v] = 1 + v := by
            simp only [natsMin, List.foldl]
            rw [Nat.min]
            omega
          rw [hmin]
          have hbj'' : ¬ bjTwo (h.cards ++ [c]) := by
            intro hb
            have hlen := bjTwo_length hb
            rw [List.length_append] at hlen
            have hlen1 : h.cards.length = 1 := by simp at hlen; omega
            obtain ⟨c1, hc1⟩ := List.length_eq_one.mp hlen1
            have := lowVal_le_ten c1
            rw [hc1, lowSum_single] at hvL
            omega
          rw [specVal_of_hard (by omega) hbj'' (by omega)]
          simp only [Value.Hard.injEq]
          omega
        · -- both candidates fit: hand turns soft
          rw [if_neg (by rintro ⟨y, hy, hgt⟩; simp at hy; rcases hy with rfl | rfl <;> omega)]
          have hmax : natsMax [1 + v, 11 + v] = 11 + v := by
            simp only [natsMax, List.foldl]
            rw [Nat.max]
            omega
          rw [hmax]
          have hn0 : aceCount h.cards = 0 := by omega
          have hbj'' : ¬ bjTwo (h.cards ++ [c]) := by
            intro hb
            have hlen := bjTwo_length hb
            rw [List.length_append] at hlen
            have hlen1 : h.cards.length = 1 := by simp at hlen; omega
            obtain ⟨c1, hc1⟩ := List.length_eq_one.mp hlen1
            rw [hc1] at hb
            rcases bjTwo_pair.mp hb with ⟨ha1, hm⟩ | ⟨ha2, hm⟩
            · have : aceCount h.cards = 1 := by rw [hc1, aceCount_single, ha1]; rfl
              omega
            · obtain ⟨hna1, h10⟩ := (mem_ten_iff c1).mp hm
              rw [hc1, lowSum_single] at hvL
              exact hbj2 ⟨hlen1, by omega⟩
          rw [specVal_of_soft (by omega) hbj'' (by omega) (by omega), hL', hn']
          simp only [Value.Soft.injEq]
          omega
  · -- inserting a non-ace into a hard hand
    have hlowc : lowVal c = x := by rw [lowVal, hcv]; rfl
    have hL' : lowSum (h.cards ++ [c]) = lowSum h.cards + x := by
      rw [lowSum_append, hlowc]
    have hn' : aceCount (h.cards ++ [c]) = aceCount h.cards := by
      rw [aceCount_append, hca]; rfl
    simp only [Hand.insert, hie, Bool.false_eq_true, if_false, hval, hcv, hca,
      List.map_cons, List.map_nil]
    rw [if_neg (by simp)]
    by_cases h21 : 21 < x + v
    · rw [if_pos (by intro y hy; simp at hy; rcases hy with rfl <;> omega)]
      rw [specVal_of_bust (by omega)]
    · rw [if_neg (by intro hall; have := hall (x + v) (by simp); omega)]
      rw [if_pos (by simp)]
      have hbj'' : ¬ bjTwo (h.cards ++ [c]) := by
        intro hb
        have hlen := bjTwo_length hb
        rw [List.length_append] at hlen
        have hlen1 : h.cards.length = 1 := by simp at hlen; omega
        obtain ⟨c1, hc1⟩ := List.length_eq_one.mp hlen1
        rw [hc1] at hb
        rcases bjTwo_pair.mp hb with ⟨ha1, hm⟩ | ⟨ha2, hm⟩
        · have hone : aceCount h.cards = 1 := by rw [hc1, aceCount_single, ha1]; rfl
          have hlow1 : lowSum h.cards = 1 := by
            rw [hc1, lowSum_single, lowVal_of_ace ha1]
          omega
        · rw [hca] at ha2; cases ha2
      rw [specVal_of_hard (by omega) hbj'' (by omega)]
      simp only [List.headD_cons, Value.Hard.injEq]
      omega

theorem lexMax_cons_cons (p q : Nat × Nat) (l : List (Nat × Nat)) :
    lexMax (p :: q :: l) =
      lexMax ((if p.1 < q.1 ∨ (p.1 = q.1 ∧ p.2 ≤ q.2) then q else p) :: l) :=
  rfl

theorem lexMax_one (p : Nat × Nat) : lexMax [p] = p :=
  rfl

theorem lexMin_cons_cons (p q : Nat × Nat) (l : List (Nat × Nat)) :
    lexMin (p :: q :: l) =
      lexMin ((if q.1 < p.1 ∨ (q.1 = p.1 ∧ q.2 < p.2) then q else p) :: l) :=
  rfl

theorem lexMin_one (p : Nat × Nat) : lexMin [p] = p :=
  rfl

theorem insert_val_soft (h : Hand) (c : Card) (v a : Nat)
    (hemp : h.cards ≠ []) (hval : h.val = Value.Soft v a)
    (hn : h.num_aces = aceCount h.cards)
    (hv : specVal h.cards = Value.Soft v a) :
    (h.insert c).val = specVal (h.cards ++ [c]) := by
  have hie := isEmpty_false_of_ne_nil hemp
  obtain ⟨hL21, hbj, hn1, hL10, hveq, haeq⟩ := specVal_soft_inv hv
  have hnle := aceCount_le_lowSum h.cards
  have hl1 := lowSum_pos hemp
  have hded : h.num_aces - a + 1 = 2 := by omega
  have hr2 : List.range 2 = [0, 1] := by decide
  have hsingle : ∀ c1, h.cards = [c1] → c1.is_ace = true ∧ lowSum h.cards = 1 := by
    intro c1 hc1
    by_cases hax : c1.is_ace = true
    · exact ⟨hax, by rw [hc1, lowSum_single, lowVal_of_ace hax]⟩
    · rw [hc1, aceCount_single] at hn1
      simp [hax] at hn1
  rcases card_shape c with ⟨hca, hcv⟩ | ⟨hca, x, hcv, hx2, hx10⟩
  · -- inserting an ace into a soft hand
    have hL' : lowSum (h.cards ++ [c]) = lowSum h.cards + 1 := by
      rw [lowSum_append, lowVal_of_ace hca]
    have hn' : aceCount (h.cards ++ [c]) = aceCount h.cards + 1 := by
      rw [aceCount_append, hca]; rfl
    have hbj'' : ¬ bjTwo (h.cards ++ [c]) := by
      intro hb
      have hlen := bjTwo_length hb
      rw [List.length_append] at hlen
      have hlen1 : h.cards.length = 1 := by simp at hlen; omega
      obtain ⟨c1, hc1⟩ := List.length_eq_one.mp hlen1
      obtain ⟨hax, _⟩ := hsingle c1 hc1
      rw [hc1] at hb
      rcases bjTwo_pair.mp hb with ⟨ha1, hm⟩ | ⟨ha2, hm⟩
      · rw [hcv] at hm; simp at hm
      · obtain ⟨hna1, _⟩ := (mem_ten_iff c1).mp hm
        rw [hax] at hna1; cases hna1
    have hrev : ([1, 11] : List Nat).reverse.enum = [(0, 11), (1, 1)] := by decide
    simp only [Hand.insert, hie, Bool.false_eq_true, if_false, hval, hcv, hded, hr2, hrev,
      List.map_cons, List.map_nil, List.foldl_cons, List.foldl_nil, List.nil_append,
      List.cons_append, List.headD_cons, Nat.zero_mul, Nat.one_mul, Nat.sub_zero,
      Nat.add_zero]
    rw [if_neg (by simp)]
    rw [if_neg (by
      intro hall
      have := hall (1 + (v - 10), a + 1 + 1) (by simp)
      omega)]
    by_cases hL11 : v = 21
    · -- lowSum = 11: only the all-low total survives, hand goes hard at 12
      rw [if_pos (by
        simp only [List.filter_cons, List.filter_nil, decide_eq_true_eq]
        rw [if_neg (by omega), if_neg (by omega), if_neg (by omega), if_pos (by omega)]
        rfl)]
      rw [lexMin_cons_cons, if_pos (by omega), lexMin_cons_cons, if_neg (by omega),
        lexMin_cons_cons, if_pos (by omega), lexMin_one]
      rw [specVal_of_hard (by omega) hbj'' (by omega)]
      simp only [Value.Hard.injEq]
      omega
    · -- lowSum ≤ 10: the hand stays soft, one more hard ace
      rw [if_neg (by
        simp only [List.filter_cons, List.filter_nil, decide_eq_true_eq]
        rw [if_neg (by omega), if_pos (by omega), if_pos (by omega), if_pos (by omega)]
        simp)]
      rw [show (List.filter (fun p => p.1 ≤ 21)
            [(11 + v, a), (11 + (v - 10), a + 1), (1 + v, a + 1), (1 + (v - 10), a + 1 + 1)])
          = [(11 + (v - 10), a + 1), (1 + v, a + 1), (1 + (v - 10), a + 1 + 1)] from by
        simp only [List.filter_cons, List.filter_nil, decide_eq_true_eq]
        rw [if_neg (by omega), if_pos (by omega), if_pos (by omega), if_pos (by omega)]]
      rw [lexMax_cons_cons, if_pos (by omega), lexMax_cons_cons, if_neg (by omega),
        lexMax_one]
      rw [specVal_of_soft (by omega) hbj'' (by omega) (by omega), hL', hn']
      simp only [Value.Soft.injEq]
      omega
  · -- inserting a non-ace into a soft hand
    have hlowc : lowVal c = x := by rw [lowVal, hcv]; rfl
    have hL' : lowSum (h.cards ++ [c]) = lowSum h.cards + x := by
      rw [lowSum_append, hlowc]
    have hn' : aceCount (h.cards ++ [c]) = aceCount h.cards := by
      rw [aceCount_append, hca]; rfl
    have hrev : ([x] : List Nat).reverse.enum = [(0, x)] := by
      simp [List.enum]
    simp only [Hand.insert, hie, Bool.false_eq_true, if_false, hval, hcv, hded, hr2, hrev,
      List.map_cons, List.map_nil, List.foldl_cons, List.foldl_nil, List.nil_append,
      List.cons_append, List.headD_cons, Nat.zero_mul, Nat.one_mul, Nat.sub_zero,
      Nat.add_zero]
    by_cases hbjc : h.cards.length = 1 ∧ v = 11 ∧ x = 10
    · -- blackjack special case: single ace + ten-card
      rw [if_pos hbjc]
      obtain ⟨c1, hc1⟩ := List.length_eq_one.mp hbjc.1
      obtain ⟨hax, hlow1⟩ := hsingle c1 hc1
      have hbj' : bjTwo (h.cards ++ [c]) := by
        rw [hc1]
        exact bjTwo_pair.mpr (Or.inl ⟨hax, by rw [hcv]; simp [hbjc.2.2]⟩)
      rw [specVal_of_bj (by omega) hbj']
    · rw [if_neg hbjc]
      by_cases h21 : 21 < x + (v - 10)
      · -- even the all-low total busts
        rw [if_pos (by
          intro p hp
          simp at hp
          rcases hp with rfl | rfl <;> omega)]
        rw [specVal_of_bust (by omega)]
      · rw [if_neg (by
          intro hall
          have := hall (x + (v - 10), a + 1) (by simp)
          omega)]
        by_cases h10 : x + v ≤ 21
        · -- both totals fit: stays soft
          rw [if_neg (by
            simp only [List.filter_cons, List.filter_nil, decide_eq_true_eq]
            rw [if_pos (by omega), if_pos (by omega)]
            simp)]
          rw [show (List.filter (fun p => p.1 ≤ 21) [(x + v, a), (x + (v - 10), a + 1)])
              = [(x + v, a), (x + (v - 10), a + 1)] from by
            simp only [List.filter_cons, List.filter_nil, decide_eq_true_eq]
            rw [if_pos (by omega), if_pos (by omega)]]
          rw [lexMax_cons_cons, if_neg (by omega), lexMax_one]
          have hbj3 : ¬ bjTwo (h.cards ++ [c]) := by
            intro hb
            have hlen := bjTwo_length hb
            rw [List.length_append] at hlen
            have hlen1 : h.cards.length = 1 := by simp at hlen; omega
            obtain ⟨c1, hc1⟩ := List.length_eq_one.mp hlen1
            obtain ⟨hax, hlow1⟩ := hsingle c1 hc1
            rw [hc1] at hb
            rcases bjTwo_pair.mp hb with ⟨ha1, hm⟩ | ⟨ha2, hm⟩
            · rw [hcv] at hm
              simp at hm
              exact hbjc ⟨hlen1, by omega, by omega⟩
            · rw [hca] at ha2; cases ha2
          rw [specVal_of_soft (by omega) hbj3 (by omega) (by omega), hL', hn']
          simp only [Value.Soft.injEq]
          omega
        · -- only the all-low total fits: goes hard
          rw [if_pos (by
            simp only [List.filter_cons, List.filter_nil, decide_eq_true_eq]
            rw [if_neg (by omega), if_pos (by omega)]
            rfl)]
          rw [lexMin_cons_cons, if_pos (by omega), lexMin_one]
          have hbj3 : ¬ bjTwo (h.cards ++ [c]) := by
            apply not_bjTwo_of_length
            rw [List.length_append]
            have : h.cards.length ≠ 1 := by
              intro hlen1
              obtain ⟨c1, hc1⟩ := List.length_eq_one.mp hlen1
              obtain ⟨hax, hlow1⟩ := hsingle c1 hc1
              omega
            have := List.length_pos.mpr hemp
            simp
            omega
          rw [specVal_of_hard (by omega) hbj3 (by omega)]
          simp only [Value.Hard.injEq]
          omega

theorem insert_val_bj (h : Hand) (c : Card)
    (hemp : h.cards ≠ []) (hval : h.val = Value.Blackjack)
    (hn : h.num_aces = aceCount h.cards)
    (hv : specVal h.cards = Value.Blackjack) :
    (h.insert c).val = specVal (h.cards ++ [c]) := by
  have hie := isEmpty_false_of_ne_nil hemp
  obtain ⟨hbj, hL21⟩ := specVal_bj_inv hv
  obtain ⟨hL11, hn1⟩ := bjTwo_stats hbj
  have hlen2 := bjTwo_length hbj
  have hbj'' : ¬ bjTwo (h.cards ++ [c]) := by
    apply not_bjTwo_of_length
    rw [List.length_append, hlen2]
    simp
  rcases card_shape c with ⟨hca, hcv⟩ | ⟨hca, x, hcv, hx2, hx10⟩
  · -- a third card that is an ace: degrade to Hard 12
    have hL' : lowSum (h.cards ++ [c]) = 12 := by
      rw [lowSum_append, lowVal_of_ace hca, hL11]
    have hn' : aceCount (h.cards ++ [c]) = 2 := by
      rw [aceCount_append, hca, hn1]; rfl
    simp only [Hand.insert, hie, Bool.false_eq_true, if_false, hval, hcv,
      List.foldl_cons, List.foldl_nil, List.map_cons, List.map_nil, List.nil_append,
      List.cons_append]
    rw [if_neg (by
      intro hall
      have := hall 12 (by simp)
      omega)]
    have hmin : natsMin [1 + 11, 1 + 21, 11 + 11, 11 + 21] = 12 := by decide
    rw [hmin, specVal_of_hard (by omega) hbj'' (by omega)]
    rw [hL']
  · -- a third non-ace card: degrade to Hard (11 + x)
    have hlowc : lowVal c = x := by rw [lowVal, hcv]; rfl
    have hL' : lowSum (h.cards ++ [c]) = 11 + x := by
      rw [lowSum_append, hlowc, hL11]
    have hn' : aceCount (h.cards ++ [c]) = 1 := by
      rw [aceCount_append, hca, hn1]; rfl
    simp only [Hand.insert, hie, Bool.false_eq_true, if_false, hval, hcv,
      List.foldl_cons, List.foldl_nil, List.map_cons, List.map_nil, List.nil_append,
      List.cons_append]
    rw [if_neg (by
      intro hall
      have := hall (x + 11) (by simp)
      omega)]
    have hmin : natsMin [x + 11, x + 21] = x + 11 := by
      simp only [natsMin, List.foldl]
      rw [Nat.min]
      omega
    rw [hmin, specVal_of_hard (by omega) hbj'' (by omega)]
    simp only [Value.Hard.injEq]
    omega

/-- One step of the refinement: `Hand.insert` preserves the `specVal`
invariant. -/
theorem insert_step (h : Hand) (c : Card)
    (hn : h.num_aces = aceCount h.cards) (hv : h.val = specVal h.cards) :
    (h.insert c).cards = h.cards ++ [c] ∧
      (h.insert c).num_aces = aceCount ((h.insert c).cards) ∧
      (h.insert c).val = specVal ((h.insert c).cards) := by
  refine ⟨insert_cards h c, ?_, ?_⟩
  · rw [insert_cards h c, insert_num_aces h c, aceCount_append, hn]
  · rw [insert_cards h c]
    by_cases hemp : h.cards = []
    · exact insert_val_empty h c hemp
    · cases hval : h.val with
      | Blackjack => exact insert_val_bj h c hemp hval hn (hv.symm.trans hval)
      | Soft v a => exact insert_val_soft h c v a hemp hval hn (hv.symm.trans hval)
      | Hard v => exact insert_val_hard h c v hemp hval hn (hv.symm.trans hval)
      | Bust => exact insert_val_bust h c hemp hval (hv.symm.trans hval)

/-- The refinement along any insertion sequence. -/
theorem handOf_inv (cs : List Card) :
    (handOf cs).cards = cs ∧ (handOf cs).num_aces = aceCount cs ∧
      (handOf cs).val = specVal cs := by
  suffices h : ∀ (start : Hand) (rest : List Card),
      start.num_aces = aceCount start.cards → start.val = specVal start.cards →
      (rest.foldl Hand.insert start).cards = start.cards ++ rest ∧
        (rest.foldl Hand.insert start).num_aces = aceCount (start.cards ++ rest) ∧
        (rest.foldl Hand.insert start).val = specVal (start.cards ++ rest) by
    have h0 := h Hand.default cs rfl (by decide)
    simpa [handOf, Hand.default] using h0
  intro start rest
  induction rest generalizing start with
  | nil =>
    intro h1 h2
    refine ⟨by simp, ?_, ?_⟩
    · simpa using h1
    · simpa using h2
  | cons c rest ih =>
    intro h1 h2
    obtain ⟨hc, hn, hv⟩ := insert_step start c h1 h2
    have := ih (start.insert c) (hc ▸ hn) (hc ▸ hv)
    rw [hc] at this
    simpa using this

/-- `Hand.insert`, starting from the empty hand, computes `specVal`. -/
theorem handOf_val (cs : List Card) : (handOf cs).val = specVal cs :=
  (handOf_inv cs).2.2

theorem handOf_cards (cs : List Card) : (handOf cs).cards = cs :=
  (handOf_inv cs).1

theorem bjTwo_iff_exists (cs : List Card) :
    bjTwo cs ↔ ∃ c1 c2, cs = [c1, c2] ∧
      ((c1.is_ace = true ∧ 10 ∈ c2.values) ∨ (c2.is_ace = true ∧ 10 ∈ c1.values)) := by
  constructor
  · intro hb
    match cs with
    | [c1, c2] => exact ⟨c1, c2, rfl, bjTwo_pair.mp hb⟩
    | [] => cases hb
    | [_] => cases hb
    | _ :: _ :: _ :: _ => cases hb
  · rintro ⟨c1, c2, rfl, hcond⟩
    exact bjTwo_pair.mpr hcond

/-! ## Claims about the hand evaluator -/

/-- C1 (counterexample): inserting two aces into the empty hand does **not**
produce `Soft(12, 0)` — the recorded forced-ace count is 1, not 0. -/
theorem two_aces_not_soft_twelve_zero :
    (handOf [⟨Suit.Heart, Rank.Ace⟩, ⟨Suit.Spade, Rank.Ace⟩]).val ≠ Value.Soft 12 0 := by
  decide

/-- C1 (amended): inserting two aces into the empty hand produces the Soft
variant with total 12 and forced-ace count 1, i.e. `Soft(12, 1)`: one of the
two aces is forced to count as 1. -/
theorem two_aces_soft_twelve_one :
    (handOf [⟨Suit.Heart, Rank.Ace⟩, ⟨Suit.Spade, Rank.Ace⟩]).val = Value.Soft 12 1 := by
  decide

/-- C2: after every insertion sequence, a non-`Bust` hand has a numeric value
of at most 21; a `Blackjack` hand has exactly 2 cards; and a `Soft(v, a)` hand
has `a` strictly below its ace count, with `v` the sum of the cards' lowest
point values plus 10 for each of the `numAces - a` aces counted as 11. -/
theorem insert_invariants (cs : List Card) :
    ((handOf cs).val ≠ Value.Bust → ∃ v, (handOf cs).value = some v ∧ v ≤ 21) ∧
    ((handOf cs).val = Value.Blackjack → (handOf cs).cards.length = 2) ∧
    (∀ v a, (handOf cs).val = Value.Soft v a →
      a < aceCount (handOf cs).cards ∧
      v = lowSum (handOf cs).cards + 10 * (aceCount (handOf cs).cards - a)) := by
  have hv := handOf_val cs
  have hc := handOf_cards cs
  rw [hc]
  refine ⟨?_, ?_, ?_⟩
  · intro hne
    cases hvv : (handOf cs).val with
    | Bust => exact absurd hvv hne
    | Blackjack => exact ⟨21, by simp [Hand.value, hvv, Value.value], by omega⟩
    | Soft v a =>
      obtain ⟨h1, _, _, h4, h5, _⟩ := specVal_soft_inv (hv.symm.trans hvv)
      exact ⟨v, by simp [Hand.value, hvv, Value.value], by omega⟩
    | Hard v =>
      obtain ⟨h1, _, _, h4⟩ := specVal_hard_inv (hv.symm.trans hvv)
      exact ⟨v, by simp [Hand.value, hvv, Value.value], by omega⟩
  · intro hbj
    obtain ⟨hb2, _⟩ := specVal_bj_inv (hv.symm.trans hbj)
    exact bjTwo_length hb2
  · intro v a hs
    obtain ⟨_, _, hn1, hl10, hveq, haeq⟩ := specVal_soft_inv (hv.symm.trans hs)
    exact ⟨by omega, by omega⟩

/-- C2 (witness): the invariant instantiated at the two-ace hand, whose
variant is `Soft(12, 1)`. -/
theorem insert_invariants_witness :
    1 < aceCount (handOf [⟨Suit.Heart, Rank.Ace⟩, ⟨Suit.Spade, Rank.Ace⟩]).cards ∧
      12 = lowSum (handOf [⟨Suit.Heart, Rank.Ace⟩, ⟨Suit.Spade, Rank.Ace⟩]).cards +
        10 * (aceCount (handOf [⟨Suit.Heart, Rank.Ace⟩, ⟨Suit.Spade, Rank.Ace⟩]).cards - 1) :=
  (insert_invariants [⟨Suit.Heart, Rank.Ace⟩, ⟨Suit.Spade, Rank.Ace⟩]).2.2 12 1 (by decide)

/-- C3: for every insertion sequence, `value()` is `none` iff `busted()`, and
any returned value is at most 21. -/
theorem value_none_iff_busted (cs : List Card) :
    ((handOf cs).value = none ↔ (handOf cs).busted = true) ∧
    (∀ v, (handOf cs).value = some v → v ≤ 21) := by
  have hv := handOf_val cs
  constructor
  · cases hvv : (handOf cs).val <;> simp [Hand.value, Hand.busted, Value.value, hvv]
  · intro v hval
    cases hvv : (handOf cs).val with
    | Bust => rw [Hand.value, hvv] at hval; cases hval
    | Blackjack =>
      rw [Hand.value, hvv] at hval
      cases hval
      omega
    | Soft w a =>
      obtain ⟨h1, _, _, h4, h5, _⟩ := specVal_soft_inv (hv.symm.trans hvv)
      rw [Hand.value, hvv] at hval
      cases hval
      omega
    | Hard w =>
      obtain ⟨h1, _, _, h4⟩ := specVal_hard_inv (hv.symm.trans hvv)
      rw [Hand.value, hvv] at hval
      cases hval
      omega

/-- C3 (witness): a concrete busted hand (Ten, Nine, Five) has `value = none`. -/
theorem value_none_iff_busted_witness :
    (handOf [⟨Suit.Club, Rank.Ten⟩, ⟨Suit.Heart, Rank.Nine⟩,
      ⟨Suit.Diamond, Rank.Five⟩]).value = none :=
  (value_none_iff_busted
    [⟨Suit.Club, Rank.Ten⟩, ⟨Suit.Heart, Rank.Nine⟩, ⟨Suit.Diamond, Rank.Five⟩]).1.mpr
    (by decide)

/-- C4: a hand built by insertion is classified `Blackjack` exactly when it
consists of two cards, one an ace and the other with 10 among its point
values; hence no hand with fewer or more than two cards is ever Blackjack. -/
theorem blackjack_iff_ace_ten_pair (cs : List Card) :
    (handOf cs).val = Value.Blackjack ↔
      ∃ c1 c2, cs = [c1, c2] ∧
        ((c1.is_ace = true ∧ 10 ∈ c2.values) ∨ (c2.is_ace = true ∧ 10 ∈ c1.values)) := by
  have hv := handOf_val cs
  rw [hv, ← bjTwo_iff_exists]
  constructor
  · intro hb
    exact (specVal_bj_inv hb).1
  · intro hb
    obtain ⟨hL, _⟩ := bjTwo_stats hb
    exact specVal_of_bj (by omega) hb

theorem perm_two {α : Type _} {a b : α} {l : List α} (hp : [a, b].Perm l) :
    l = [a, b] ∨ l = [b, a] := by
  have hlen : l.length = 2 := hp.length_eq.symm
  obtain ⟨c, d, rfl⟩ := List.length_eq_two.mp hlen
  rcases (by simpa using hp.subset (show a ∈ [a, b] by simp) : a = c ∨ a = d) with rfl | rfl
  · have hbd := List.perm_singleton.mp hp.cons_inv
    injection hbd with h1 _
    exact Or.inl (by rw [h1])
  · have h2 : [a, b].Perm [a, c] := hp.trans (List.Perm.swap a c [])
    have hbc := List.perm_singleton.mp h2.cons_inv
    injection hbc with h1 _
    exact Or.inr (by rw [h1])

theorem bjTwo_perm {cs1 cs2 : List Card} (hp : cs1.Perm cs2) : bjTwo cs1 ↔ bjTwo cs2 := by
  by_cases hlen : cs1.length = 2
  · obtain ⟨a, b, rfl⟩ := List.length_eq_two.mp hlen
    rcases perm_two hp with rfl | rfl
    · exact Iff.rfl
    · rw [bjTwo_pair, bjTwo_pair]
      tauto
  · constructor <;> intro hb
    · exact absurd (bjTwo_length hb) hlen
    · exact absurd (hp.length_eq.trans (bjTwo_length hb)) hlen

/-- C5: the final classification is a function of the card multiset alone —
any two insertion orders of the same cards give the same variant (including
`Soft`'s bookkeeping) and the same numeric value — and a hand of other than
two cards is never Blackjack in any insertion order. -/
theorem perm_same_classification (cs1 cs2 : List Card) (hp : cs1.Perm cs2) :
    (handOf cs1).val = (handOf cs2).val ∧
      (handOf cs1).value = (handOf cs2).value ∧
      (cs1.length ≠ 2 → (handOf cs1).val ≠ Value.Blackjack) := by
  have hlow : lowSum cs1 = lowSum cs2 := (hp.map lowVal).sum_eq
  have hace : aceCount cs1 = aceCount cs2 := hp.countP_eq _
  have hbj := bjTwo_perm hp
  have hval : (handOf cs1).val = (handOf cs2).val := by
    rw [handOf_val, handOf_val, specVal, specVal, hlow, hace]
    simp only [hbj]
  refine ⟨hval, ?_, ?_⟩
  · rw [Hand.value, Hand.value, hval]
  · intro hlen hbj1
    exact hlen (bjTwo_length (specVal_bj_inv ((handOf_val cs1).symm.trans hbj1)).1)

/-- C5 (witness): {Ace, King} in either order yields the same classification
(both Blackjack). -/
theorem perm_same_classification_witness :
    (handOf [⟨Suit.Heart, Rank.Ace⟩, ⟨Suit.Diamond, Rank.King⟩]).val
      = (handOf [⟨Suit.Diamond, Rank.King⟩, ⟨Suit.Heart, Rank.Ace⟩]).val :=
  (perm_same_classification
    [⟨Suit.Heart, Rank.Ace⟩, ⟨Suit.Diamond, Rank.King⟩]
    [⟨Suit.Diamond, Rank.King⟩, ⟨Suit.Heart, Rank.Ace⟩] (by decide)).1

/-- C6: inserting Ace, Ace, Nine in order yields a non-busted, non-blackjack
hand with value exactly 21, classified `Soft(21, 1)`: one ace still forced to
1, one counted as 11. -/
theorem ace_ace_nine_soft_21 :
    (handOf [⟨Suit.Heart, Rank.Ace⟩, ⟨Suit.Diamond, Rank.Ace⟩, ⟨Suit.Heart, Rank.Nine⟩]).value
        = some 21 ∧
      (handOf [⟨Suit.Heart, Rank.Ace⟩, ⟨Suit.Diamond, Rank.Ace⟩,
        ⟨Suit.Heart, Rank.Nine⟩]).busted = false ∧
      (handOf [⟨Suit.Heart, Rank.Ace⟩, ⟨Suit.Diamond, Rank.Ace⟩,
        ⟨Suit.Heart, Rank.Nine⟩]).blackjack = false ∧
      (handOf [⟨Suit.Heart, Rank.Ace⟩, ⟨Suit.Diamond, Rank.Ace⟩,
        ⟨Suit.Heart, Rank.Nine⟩]).val = Value.Soft 21 1 := by
  decide

theorem countSum_append (l1 l2 : List Card) :
    countSum (l1 ++ l2) = countSum l1 + countSum l2 := by
  simp [countSum]

theorem shoe_new_cards_length (d : Nat) : (Shoe.new d).cards.length = 52 * d := by
  simp only [Shoe.new, allSuits, allRanks, List.foldl_cons, List.foldl_nil,
    List.length_append, List.length_replicate, List.length_nil]
  omega

theorem shoe_new_countSum (d : Nat) : countSum (Shoe.new d).cards = 0 := by
  simp only [Shoe.new, allSuits, allRanks, List.foldl_cons, List.foldl_nil, countSum,
    List.map_append, List.sum_append, List.map_replicate, List.sum_replicate,
    List.map_nil, List.sum_nil, Card.count, nsmul_eq_mul]
  ring

/-- The state of a shoe after `k` deals, in terms of its initial card list. -/
theorem dealIter_spec (k : Nat) (s : Shoe) :
    (dealIter s k).cards = s.cards.take (s.cards.length - k) ∧
      (dealIter s k).counter.running_count =
        s.counter.running_count + countSum (s.cards.drop (s.cards.length - k)) ∧
      (dealIter s k).decks = s.decks ∧
      (dealIter s k).counter.num_decks = s.counter.num_decks := by
  induction k generalizing s with
  | zero =>
    refine ⟨by simp [dealIter], by simp [dealIter, countSum], rfl, rfl⟩
  | succ k ih =>
    have hstep : dealIter s (k + 1) = dealIter (s.deal).2 k := rfl
    rw [hstep]
    cases hlast : s.cards.getLast? with
    | none =>
      have hnil : s.cards = [] := List.getLast?_eq_none_iff.mp hlast
      have hdeal : (s.deal).2 = s := by simp [Shoe.deal, hlast]
      rw [hdeal]
      obtain ⟨h1, h2, h3, h4⟩ := ih s
      refine ⟨?_, ?_, h3, h4⟩
      · rw [h1, hnil]; simp
      · rw [h2, hnil]; simp
    | some c =>
      obtain ⟨l', hl'⟩ := List.getLast?_eq_some_iff.mp hlast
      have hdeal : (s.deal).2 =
          { s with
            cards := s.cards.dropLast
            counter := s.counter.insert c } := by
        simp [Shoe.deal, hlast]
      rw [hdeal]
      obtain ⟨h1, h2, h3, h4⟩ := ih
        { s with
          cards := s.cards.dropLast
          counter := s.counter.insert c }
      have hdl : s.cards.dropLast = l' := by rw [hl', List.dropLast_concat]
      have hlen : s.cards.length = l'.length + 1 := by rw [hl']; simp
      have hkk : l'.length + 1 - (k + 1) = l'.length - k := by omega
      refine ⟨?_, ?_, h3, h4⟩
      · rw [h1, hdl, hl']
        simp only [List.length_append, List.length_cons, List.length_nil]
        rw [hkk, List.take_append_of_le_length (by omega)]
      · rw [h2, hdl, hl']
        simp only [HiLoCounter.insert, List.length_append, List.length_cons,
          List.length_nil]
        rw [hkk, List.drop_append_of_le_length (by omega), countSum_append]
        simp [countSum]
        ring

theorem dealIter_len (d k : Nat) :
    (dealIter (Shoe.new d) k).cards.length = 52 * d - k := by
  obtain ⟨h1, _, _, _⟩ := dealIter_spec k (Shoe.new d)
  rw [h1, List.length_take, shoe_new_cards_length]
  omega

theorem dealIter_decks (d k : Nat) : (dealIter (Shoe.new d) k).decks = d :=
  (dealIter_spec k (Shoe.new d)).2.2.1

theorem dealIter_numdecks (d k : Nat) :
    (dealIter (Shoe.new d) k).counter.num_decks = d :=
  (dealIter_spec k (Shoe.new d)).2.2.2

theorem dealIter_rc (d k : Nat) :
    (dealIter (Shoe.new d) k).counter.running_count =
      countSum ((Shoe.new d).cards.drop (52 * d - k)) := by
  obtain ⟨_, h2, _, _⟩ := dealIter_spec k (Shoe.new d)
  rw [h2, shoe_new_cards_length]
  show (0 : Int) + _ = _
  rw [Int.zero_add]

theorem dealIter_pen (d k : Nat) :
    (dealIter (Shoe.new d) k).penetration =
      1 - ((52 * d - k : Nat) : ℚ) / ((d * 52 : Nat) : ℚ) := by
  rw [Shoe.penetration, dealIter_decks, dealIter_len]

theorem shoe_deal_some {s s' : Shoe} {c : Card} (h : s.deal = (some c, s')) :
    s'.len + 1 = s.len := by
  cases hlast : s.cards.getLast? with
  | none => simp [Shoe.deal, hlast] at h
  | some c2 =>
    simp only [Shoe.deal, hlast, Prod.mk.injEq, Option.some.injEq] at h
    obtain ⟨l', hl'⟩ := List.getLast?_eq_some_iff.mp hlast
    rw [← h.2, Shoe.len, Shoe.len]
    simp [hl', List.dropLast_concat]

/-- C9: shoe invariants.  With `s_k` the shoe after `k` deals from a fresh
`d`-deck shoe: `len + number-dealt = 52·d`; `penetration = 1 − len/(52·d)`,
lies in `[0, 1]`, and is monotone along deals; `runningCount` is the sum of
the dealt cards' hi-lo weights divided by `d` (the dealt cards being the
dropped suffix of the initial stack), zero after the whole shoe is dealt; and
every successful deal shrinks the shoe by exactly one card. -/
theorem shoe_invariants (d k : Nat) :
    (dealIter (Shoe.new d) k).len + min k (52 * d) = 52 * d ∧
    (dealIter (Shoe.new d) k).penetration =
      1 - ((dealIter (Shoe.new d) k).len : ℚ) / (((dealIter (Shoe.new d) k).num_decks * 52 : Nat) : ℚ) ∧
    (0 ≤ (dealIter (Shoe.new d) k).penetration ∧
      (dealIter (Shoe.new d) k).penetration ≤ 1) ∧
    (∀ k', k ≤ k' →
      (dealIter (Shoe.new d) k).penetration ≤ (dealIter (Shoe.new d) k').penetration) ∧
    (dealIter (Shoe.new d) k).running_count =
      (countSum ((Shoe.new d).cards.drop (52 * d - k)) : ℚ) / (d : ℚ) ∧
    (dealIter (Shoe.new d) (52 * d)).running_count = 0 ∧
    (∀ (c : Card) (s' : Shoe), (dealIter (Shoe.new d) k).deal = (some c, s') →
      s'.len + 1 = (dealIter (Shoe.new d) k).len) := by
  have hpen : ∀ j, (dealIter (Shoe.new d) j).penetration =
      1 - ((52 * d - j : Nat) : ℚ) / ((d * 52 : Nat) : ℚ) := dealIter_pen d
  refine ⟨?_, ?_, ?_, ?_, ?_, ?_, ?_⟩
  · rw [Shoe.len, dealIter_len]
    omega
  · rw [Shoe.len, Shoe.num_decks, dealIter_decks, dealIter_pen, dealIter_len]
  · rw [hpen k]
    rcases Nat.eq_zero_or_pos d with rfl | hd
    · norm_num
    · have hq : (0 : ℚ) < ((d * 52 : Nat) : ℚ) := by
        rw [show ((d * 52 : Nat) : ℚ) = (d : ℚ) * 52 from by push_cast; ring]
        positivity
      have hle : ((52 * d - k : Nat) : ℚ) ≤ ((d * 52 : Nat) : ℚ) :=
        Nat.cast_le.mpr (by omega)
      have h0 : (0 : ℚ) ≤ ((52 * d - k : Nat) : ℚ) := Nat.cast_nonneg _
      constructor
      · have := (div_le_one hq).mpr hle
        linarith
      · have := div_nonneg h0 (le_of_lt hq)
        linarith
  · intro k' hk
    rw [hpen k, hpen k']
    rcases Nat.eq_zero_or_pos d with rfl | hd
    · norm_num
    · have hq : (0 : ℚ) < ((d * 52 : Nat) : ℚ) := by
        rw [show ((d * 52 : Nat) : ℚ) = (d : ℚ) * 52 from by push_cast; ring]
        positivity
      have hle : ((52 * d - k' : Nat) : ℚ) ≤ ((52 * d - k : Nat) : ℚ) :=
        Nat.cast_le.mpr (by omega)
      have := (div_le_div_iff_of_pos_right hq).mpr hle
      linarith
  · rw [Shoe.running_count, HiLoCounter.count, dealIter_rc, dealIter_numdecks]
  · rw [Shoe.running_count, HiLoCounter.count, dealIter_rc]
    rw [Nat.sub_self, List.drop_zero, shoe_new_countSum]
    norm_num
  · intro c s' hdeal
    exact shoe_deal_some hdeal

/-- C9 (witness): the invariants instantiated for a freshly created one-deck
shoe after one deal. -/
theorem shoe_invariants_witness :
    (dealIter (Shoe.new 1) 1).len + min 1 (52 * 1) = 52 * 1 ∧
      (dealIter (Shoe.new 1) 1).penetration ≤ (dealIter (Shoe.new 1) 2).penetration :=
  ⟨(shoe_invariants 1 1).1, (shoe_invariants 1 1).2.2.2.1 2 (by omega)⟩

theorem value_some_of_not_busted {h : Hand} (hb : h.busted = false) :
    ∃ v, h.value = some v := by
  cases hv : h.val with
  | Bust => rw [Hand.busted, hv] at hb; simp at hb
  | Blackjack => exact ⟨21, by rw [Hand.value, hv]; rfl⟩
  | Soft v a => exact ⟨v, by rw [Hand.value, hv]; rfl⟩
  | Hard v => exact ⟨v, by rw [Hand.value, hv]; rfl⟩

/-- C7: `Table::get_outcome` computes exactly the spec's priority-ordered
outcome of the player's hand against the dealer's. -/
theorem get_outcome_spec (t : Table) (player : Nat) :
    t.get_outcome player = outcomeSpec t.dealer (t.player_hand player) := by
  rw [Table.get_outcome, outcomeSpec]
  split_ifs with h1 h2 h3 h4 h5
  · rfl
  · rfl
  · rfl
  · rfl
  · rfl
  · obtain ⟨pv, hp⟩ := value_some_of_not_busted (by
      cases hb : (t.player_hand player).busted
      · rfl
      · exact absurd hb h4)
    obtain ⟨dv, hd⟩ := value_some_of_not_busted (by
      cases hb : t.dealer.busted
      · rfl
      · exact absurd hb h5)
    rw [hp, hd]
    rfl

/-- C10: `Table::flip_hole` panics exactly in the `Open` phase, and otherwise
sets the state to `Flipped` (idempotently) leaving the dealer hand, the
player hands, and the shoe untouched. -/
theorem flip_hole_spec (t : Table) :
    (t.flip_hole = none ↔ t.state = TableState.Open) ∧
    (t.state ≠ TableState.Open →
      t.flip_hole = some { t with state := TableState.Flipped }) := by
  constructor
  · rw [Table.flip_hole]
    split_ifs with h <;> simp [h]
  · intro h
    rw [Table.flip_hole, if_neg h]

/-- C10 (witness): flipping on a table in the `Dealt` phase succeeds and only
changes the state. -/
theorem flip_hole_spec_witness :
    ({ Table.new 1 1 1 with state := TableState.Dealt } : Table).flip_hole
      = some { ({ Table.new 1 1 1 with state := TableState.Dealt } : Table) with
          state := TableState.Flipped } :=
  (flip_hole_spec { Table.new 1 1 1 with state := TableState.Dealt }).2 (by decide)

theorem shoe_deal_none (s : Shoe) (h : s.cards = []) : s.deal = (none, s) := by
  simp [Shoe.deal, h]

theorem shoe_deal_fst_none_iff (s : Shoe) : (s.deal).1 = none ↔ s.cards = [] := by
  cases hlast : s.cards.getLast? with
  | none => simp [Shoe.deal, hlast, List.getLast?_eq_none_iff.mp hlast]
  | some c =>
    obtain ⟨l', hl'⟩ := List.getLast?_eq_some_iff.mp hlast
    simp [Shoe.deal, hlast, hl']

theorem dealRound_spec (hands : List Hand) : ∀ (s : Shoe),
    (dealRound s hands = none ↔ s.cards.length < hands.length) ∧
    (∀ s' hs', dealRound s hands = some (s', hs') →
      s'.cards.length = s.cards.length - hands.length ∧ hs'.length = hands.length) := by
  induction hands with
  | nil =>
    intro s
    refine ⟨by simp [dealRound], ?_⟩
    intro s' hs' h
    simp only [dealRound, Option.some.injEq, Prod.mk.injEq] at h
    obtain ⟨rfl, rfl⟩ := h
    simp
  | cons hd tl ih =>
    intro s
    by_cases hnil : s.cards = []
    · have hdeal := shoe_deal_none s hnil
      constructor
      · simp [dealRound, hdeal, hnil]
      · intro s' hs' h
        simp [dealRound, hdeal] at h
    · cases hlast : s.cards.getLast? with
      | none => exact absurd (List.getLast?_eq_none_iff.mp hlast) hnil
      | some c =>
        have hdeal : s.deal = (some c,
            { s with
              cards := s.cards.dropLast
              counter := s.counter.insert c }) := by
          simp [Shoe.deal, hlast]
        obtain ⟨l', hl'⟩ := List.getLast?_eq_some_iff.mp hlast
        set s2 : Shoe :=
          { s with
            cards := s.cards.dropLast
            counter := s.counter.insert c } with hs2
        have hlen : s2.cards.length + 1 = s.cards.length := by
          rw [hs2]
          simp [hl', List.dropLast_concat]
        obtain ⟨ih1, ih2⟩ := ih s2
        constructor
        · constructor
          · intro h
            simp only [dealRound, hdeal] at h
            cases hrec : dealRound s2 tl with
            | none =>
              have := ih1.mp hrec
              simp
              omega
            | some pair =>
              rw [hrec] at h
              cases h
          · intro h
            simp only [dealRound, hdeal]
            cases hrec : dealRound s2 tl with
            | none => rfl
            | some pair =>
              have hge : ¬ s2.cards.length < tl.length := by
                intro hc
                rw [ih1.mpr hc] at hrec
                cases hrec
              simp only [List.length_cons] at h
              exfalso
              omega
        · intro s' hs' h
          simp only [dealRound, hdeal] at h
          cases hrec : dealRound s2 tl with
          | none =>
            rw [hrec] at h
            cases h
          | some pair =>
            obtain ⟨s3, hl3⟩ := pair
            rw [hrec] at h
            simp only [Option.some.injEq, Prod.mk.injEq] at h
            obtain ⟨rfl, rfl⟩ := h
            obtain ⟨e1, e2⟩ := ih2 s3 hl3 hrec
            constructor
            · rw [e1]
              simp only [List.length_cons]
              have hlen2 : s.cards.dropLast.length + 1 = s.cards.length := by
                simp [hl', List.dropLast_concat]
              omega
            · simp [e2]

theorem dealOne_spec (s : Shoe) (h : Hand) :
    (dealOne s h = none ↔ s.cards.length = 0) ∧
    (∀ s' h', dealOne s h = some (s', h') → s'.cards.length = s.cards.length - 1) := by
  by_cases hnil : s.cards = []
  · have hdeal := shoe_deal_none s hnil
    refine ⟨by simp [dealOne, hdeal, hnil], ?_⟩
    intro s' h' hh
    simp [dealOne, hdeal] at hh
  · cases hlast : s.cards.getLast? with
    | none => exact absurd (List.getLast?_eq_none_iff.mp hlast) hnil
    | some c =>
      have hdeal : s.deal = (some c,
          { s with
            cards := s.cards.dropLast
            counter := s.counter.insert c }) := by
        simp [Shoe.deal, hlast]
      obtain ⟨l', hl'⟩ := List.getLast?_eq_some_iff.mp hlast
      refine ⟨by simp [dealOne, hdeal, hl'], ?_⟩
      intro s' h' hh
      simp only [dealOne, hdeal, Option.some.injEq, Prod.mk.injEq] at hh
      obtain ⟨rfl, _⟩ := hh
      simp [hl', List.dropLast_concat]

/-- In the `Open` phase, `Table::deal` panics exactly when the shoe it deals
from (after the optional reshuffle) holds fewer than the `2·(spots+1)` cards
the deal draws. -/
theorem deal_none_iff (t : Table) (hopen : t.state = TableState.Open) :
    t.deal = none ↔ t.dealShoe.cards.length < 2 * (t.player_hands.length + 1) := by
  rw [Table.deal, if_neg (by simp [hopen])]
  obtain ⟨r1none, r1some⟩ := dealRound_spec t.player_hands t.dealShoe
  cases h1 : dealRound t.dealShoe t.player_hands with
  | none =>
    have hlt := r1none.mp h1
    simp only [h1]
    simp
    omega
  | some pair1 =>
    obtain ⟨s1, hands1⟩ := pair1
    obtain ⟨e1, e1len⟩ := r1some s1 hands1 h1
    have hnot1 : ¬ (t.dealShoe.cards.length < t.player_hands.length) := by
      intro hc
      rw [r1none.mpr hc] at h1
      cases h1
    obtain ⟨o1none, o1some⟩ := dealOne_spec s1 t.dealer
    cases h2 : dealOne s1 t.dealer with
    | none =>
      have hz := o1none.mp h2
      simp only [h1, h2]
      simp
      omega
    | some pair2 =>
      obtain ⟨s2, dealer1⟩ := pair2
      have e2 := o1some s2 dealer1 h2
      have hnot2 : s1.cards.length ≠ 0 := by
        intro hc
        rw [o1none.mpr hc] at h2
        cases h2
      obtain ⟨r2none, r2some⟩ := dealRound_spec hands1 s2
      cases h3 : dealRound s2 hands1 with
      | none =>
        have hlt := r2none.mp h3
        simp only [h1, h2, h3]
        simp
        omega
      | some pair3 =>
        obtain ⟨s3, hands2⟩ := pair3
        obtain ⟨e3, _⟩ := r2some s3 hands2 h3
        have hnot3 : ¬ (s2.cards.length < hands1.length) := by
          intro hc
          rw [r2none.mpr hc] at h3
          cases h3
        obtain ⟨o2none, o2some⟩ := dealOne_spec s3 dealer1
        cases h4 : dealOne s3 dealer1 with
        | none =>
          have hz := o2none.mp h4
          simp only [h1, h2, h3, h4]
          simp
          omega
        | some pair4 =>
          obtain ⟨s4, dealer2⟩ := pair4
          have hnot4 : s3.cards.length ≠ 0 := by
            intro hc
            rw [o2none.mpr hc] at h4
            cases h4
          simp only [h1, h2, h3, h4]
          simp
          omega

/-- C8 (counterexample): the claim "`playerHit` panics iff the state is not
`Dealt`" fails — on a 1-deck, 25-spot, max-penetration-1 table, the opening
deal consumes all 52 cards, so a `playerHit` in the `Dealt` phase panics on
the exhausted shoe (`unwrap` of `None`). -/
theorem phase_claim_counterexample :
    ((Table.new 1 25 1).deal.map (fun p => (p.1.state, p.1.player_hit 0)))
      = some (TableState.Dealt, none) := by
  have hres : decide ((Table.new 1 25 1).shoe.penetration
      > (Table.new 1 25 1).max_penetration) = false := by
    rw [decide_eq_false_iff_not]
    have h1 : (Table.new 1 25 1).shoe.penetration = 0 := by
      show (1 : ℚ) - ((Shoe.new 1).cards.length : ℚ) / (((Shoe.new 1).decks * 52 : Nat) : ℚ) = 0
      rw [shoe_new_cards_length]
      norm_num [Shoe.new]
    rw [h1]
    show ¬((0 : ℚ) > min 1 (max 0 1))
    norm_num
  rw [Table.deal]
  rw [if_neg (by show ¬¬((Table.new 1 25 1).state = TableState.Open); simp; rfl)]
  simp only [hres, Table.dealShoe]
  rw [if_neg (by simp)]
  decide

/-- C8 (amended): `reset`, `clearHands`, and `peek` panic exactly outside
their legal phase (`Open`, `Flipped`, `Dealt` respectively).  `deal`,
`playerHit`, and `dealerHit` always panic outside their legal phase, and
panic inside it exactly when the needed cards are missing: `deal` iff the
(possibly reshuffled) shoe holds fewer than `2·(spots+1)` cards; `playerHit`
iff the spot is out of bounds or the hand is not yet busted and the shoe is
empty; `dealerHit` iff the dealer is not yet busted and the shoe is empty.
After a `deal` and a `peek` returning true, a `playerHit` is rejected. -/
theorem table_phase_spec (t : Table) (spot : Nat) :
    (t.reset = none ↔ t.state ≠ TableState.Open) ∧
    (t.clear_hands = none ↔ t.state ≠ TableState.Flipped) ∧
    (t.peek = none ↔ t.state ≠ TableState.Dealt) ∧
    (t.state ≠ TableState.Open → t.deal = none) ∧
    (t.state = TableState.Open →
      (t.deal = none ↔ t.dealShoe.cards.length < 2 * (t.player_hands.length + 1))) ∧
    (t.state ≠ TableState.Dealt → t.player_hit spot = none) ∧
    (t.state = TableState.Dealt →
      (t.player_hit spot = none ↔
        (t.player_hands.length ≤ spot ∨
          ((t.player_hand spot).busted = false ∧ t.shoe.cards = [])))) ∧
    (t.state = TableState.Open → t.dealer_hit = none) ∧
    (t.state ≠ TableState.Open →
      (t.dealer_hit = none ↔ (t.dealer.busted = false ∧ t.shoe.cards = []))) ∧
    (∀ t2 b t3, t.deal = some (t2, b) → t2.peek = some (t3, true) →
      t3.player_hit spot = none) := by
  refine ⟨?_, ?_, ?_, ?_, ?_, ?_, ?_, ?_, ?_, ?_⟩
  · rw [Table.reset]
    split_ifs with h <;> simp [h]
  · rw [Table.clear_hands]
    split_ifs with h <;> simp [h]
  · rw [Table.peek]
    split_ifs with h h2 <;> simp [h]
  · intro h
    rw [Table.deal, if_pos h]
  · exact deal_none_iff t
  · intro h
    rw [Table.player_hit, if_pos h]
  · intro h
    rw [Table.player_hit, if_neg (by simp [h])]
    by_cases hoob : t.player_hands.length ≤ spot
    · rw [if_pos hoob]
      simp [hoob]
    · rw [if_neg hoob]
      by_cases hbust : (t.player_hand spot).busted
      · rw [if_pos hbust]
        simp [hbust, hoob]
      · rw [if_neg hbust]
        rw [Bool.not_eq_true] at hbust
        cases hdeal : t.shoe.deal with
        | mk oc s' =>
          cases oc with
          | none =>
            have hnil : t.shoe.cards = [] := by
              rw [← shoe_deal_fst_none_iff, hdeal]
            simp [hdeal, hnil, hbust]
          | some c =>
            have hnnil : t.shoe.cards ≠ [] := by
              intro hc
              have := (shoe_deal_fst_none_iff t.shoe).mpr hc
              rw [hdeal] at this
              cases this
            simp [hdeal, hoob, hnnil]
  · intro h
    rw [Table.dealer_hit, if_pos h]
  · intro h
    rw [Table.dealer_hit, if_neg h]
    by_cases hbust : t.dealer.busted
    · rw [if_pos hbust]
      simp [hbust]
    · rw [if_neg hbust]
      rw [Bool.not_eq_true] at hbust
      cases hdeal : t.shoe.deal with
      | mk oc s' =>
        cases oc with
        | none =>
          have hnil : t.shoe.cards = [] := by
            rw [← shoe_deal_fst_none_iff, hdeal]
          simp [hdeal, hnil, hbust]
        | some c =>
          have hnnil : t.shoe.cards ≠ [] := by
            intro hc
            have := (shoe_deal_fst_none_iff t.shoe).mpr hc
            rw [hdeal] at this
            cases this
          simp [hdeal, hnnil]
  · intro t2 b t3 _ hpeek
    rw [Table.peek] at hpeek
    by_cases hst : t2.state ≠ TableState.Dealt
    · rw [if_pos hst] at hpeek
      cases hpeek
    · rw [if_neg hst] at hpeek
      by_cases hbj : t2.dealer.blackjack = true
      · rw [if_pos hbj] at hpeek
        simp only [Option.some.injEq, Prod.mk.injEq] at hpeek
        obtain ⟨ht3, -⟩ := hpeek
        subst ht3
        rw [Table.player_hit, if_pos (by simp)]
      · rw [if_neg hbj] at hpeek
        simp only [Option.some.injEq, Prod.mk.injEq] at hpeek
        exact absurd hpeek.2 (by simp)

/-- C8 (witness): a table frozen in the `Dealt` phase rejects `deal`. -/
theorem table_phase_spec_witness :
    ({ Table.new 1 1 1 with state := TableState.Dealt } : Table).deal = none :=
  (table_phase_spec { Table.new 1 1 1 with state := TableState.Dealt } 0).2.2.2.1
    (by decide)
